import Mathlib

/-!
Verification of the data-structure core of the DSAWebsiteGroupings Flask
application: the numeric binary search tree (insert / search / find-max /
delete), the generic level-order tree insertion, the linked stack and the
linked queue, the string-keyed feed-search BST, and the integer-parsing
route guards.  Every definition is a shallow embedding of the corresponding
Python function; theorems settle the specification claims about them.
-/

/-- Binary tree with one value and two child slots, the shape shared by the
Python `TreeNode` / `Node` classes (a missing child is `None`, here `nil`). -/
inductive BTree (α : Type) where
  | nil : BTree α
  | node (val : α) (left : BTree α) (right : BTree α) : BTree α
  deriving DecidableEq

/-- Whether the tree is the empty tree (`None` in Python). -/
def BTree.isNil {α : Type} : BTree α → Bool
  | BTree.nil => true
  | BTree.node _ _ _ => false

-- ----------------------------------------------------------------------
-- Numeric BST (app.py `bst_insert`, `bst_search`, `bst_find_max`,
-- `bst_delete`)
-- ----------------------------------------------------------------------

/-- `bst_insert`: descend with `<`; ties (`val == node.val`) take the
`else` branch and go right. -/
def bst_insert : BTree Int → Int → BTree Int
  | BTree.nil, v => BTree.node v BTree.nil BTree.nil
  | BTree.node x l r, v =>
    if v < x then BTree.node x (bst_insert l v) r
    else BTree.node x l (bst_insert r v)

/-- `bst_search`: equality first, then strict comparison to pick a side. -/
def bst_search : BTree Int → Int → Bool
  | BTree.nil, _ => false
  | BTree.node x l r, v =>
    if x = v then true
    else if v < x then bst_search l v
    else bst_search r v

/-- The `while node.right: node = node.right` loop of `bst_find_max`,
started at a node holding `x` whose right child is the argument. -/
def bst_find_max_loop (x : Int) : BTree Int → Int
  | BTree.nil => x
  | BTree.node y _ r => bst_find_max_loop y r

/-- `bst_find_max`: `None` on the empty tree, otherwise the value of the
rightmost node. -/
def bst_find_max : BTree Int → Option Int
  | BTree.nil => none
  | BTree.node x _ r => some (bst_find_max_loop x r)

/-- `bst_delete`: descend by comparison; a node with no left child is
replaced by its right child (covers the leaf case), one with no right child
by its left child, and a two-child node has its value overwritten with the
maximum of its left subtree (`bst_find_max(node.left)`), which is then
deleted from that left subtree. -/
def bst_delete : BTree Int → Int → BTree Int
  | BTree.nil, _ => BTree.nil
  | BTree.node x l r, v =>
    if v < x then BTree.node x (bst_delete l v) r
    else if x < v then BTree.node x l (bst_delete r v)
    else
      match l, r with
      | BTree.nil, _ => r
      | _, BTree.nil => l
      | BTree.node lx _ lr, BTree.node _ _ _ =>
        BTree.node (bst_find_max_loop lx lr) (bst_delete l (bst_find_max_loop lx lr)) r

/-- Folding `bst_insert` over a list of keys, starting from a given tree. -/
def insertList (t : BTree Int) (vs : List Int) : BTree Int :=
  vs.foldl bst_insert t

/-- Folding `bst_delete` over a list of keys. -/
def deleteList (t : BTree Int) (vs : List Int) : BTree Int :=
  vs.foldl bst_delete t

/-- A single interactive BST operation: insert or delete of one key. -/
inductive BSTOp where
  | ins (v : Int)
  | del (v : Int)
  deriving DecidableEq

/-- Apply one BST operation to the global tree. -/
def applyOp (t : BTree Int) : BSTOp → BTree Int
  | BSTOp.ins v => bst_insert t v
  | BSTOp.del v => bst_delete t v

/-- Run a sequence of insert/delete operations from the empty tree. -/
def applyOps (ops : List BSTOp) : BTree Int :=
  ops.foldl applyOp BTree.nil

/-- Number of nodes of `t` holding key `k`. -/
def keyCount : BTree Int → Int → Nat
  | BTree.nil, _ => 0
  | BTree.node x l r, k =>
    (if x = k then 1 else 0) + keyCount l k + keyCount r k

/-- `allKeys p t` holds when every node value of `t` satisfies `p`. -/
def allKeys (p : Int → Bool) : BTree Int → Bool
  | BTree.nil => true
  | BTree.node x l r => p x && allKeys p l && allKeys p r

/-- The ordering invariant exactly as the specification states it: at every
node the left-subtree keys are strictly below the node's key and the
right-subtree keys are greater or equal. -/
def isBSTStrict : BTree Int → Bool
  | BTree.nil => true
  | BTree.node x l r =>
    allKeys (fun k => decide (k < x)) l && allKeys (fun k => decide (x ≤ k)) r &&
      isBSTStrict l && isBSTStrict r

/-- The weakened ordering invariant: left-subtree keys are less than or
equal to the node's key, right-subtree keys are greater or equal. -/
def isBSTWeak : BTree Int → Bool
  | BTree.nil => true
  | BTree.node x l r =>
    allKeys (fun k => decide (k ≤ x)) l && allKeys (fun k => decide (x ≤ k)) r &&
      isBSTWeak l && isBSTWeak r

/-- Occurrences of `k` in a list of keys. -/
def countIn : List Int → Int → Nat
  | [], _ => 0
  | v :: vs, k => (if v = k then 1 else 0) + countIn vs k

-- ----------------------------------------------------------------------
-- Linked stack (app.py `Stack`)
-- ----------------------------------------------------------------------

/-- The linked stack: `head` is the chain of node values reached by
following `left` links from the head node, `length` the stored counter. -/
structure Stack (α : Type) where
  head : List α
  length : Nat
  deriving DecidableEq

/-- A freshly constructed stack. -/
def Stack.empty {α : Type} : Stack α := ⟨[], 0⟩

/-- `push`: the new node's `left` is the old head, then it becomes head. -/
def Stack.push {α : Type} (s : Stack α) (v : α) : Stack α :=
  ⟨v :: s.head, s.length + 1⟩

/-- `to_list`: walk from the head following `left` links. -/
def Stack.to_list {α : Type} (s : Stack α) : List α :=
  s.head

/-- Push every value of `vs`, in order. -/
def pushAll {α : Type} (s : Stack α) (vs : List α) : Stack α :=
  vs.foldl Stack.push s

-- ----------------------------------------------------------------------
-- Linked queue (app.py `QueueLinked`)
-- ----------------------------------------------------------------------

/-- The linked queue.  `headChain` is the list of values reachable from the
`head` reference through `right` links (so `head` is null iff it is empty),
`tailSet` records whether the cached `tail` reference is non-null (the code
never resets it to null), and `length` is the stored counter.  Whenever
`head` is non-null, `tail` aliases the last node of the head chain, so the
`self.tail.right = n` append in `enqueue` appends to `headChain`. -/
structure QueueLinked (α : Type) where
  headChain : List α
  tailSet : Bool
  length : Nat
  deriving DecidableEq

/-- A freshly constructed queue: both references null. -/
def QueueLinked.empty {α : Type} : QueueLinked α := ⟨[], false, 0⟩

/-- `enqueue`: first call sets both `head` and `tail` to the new node,
later calls link the new node after `tail` and move `tail` to it. -/
def QueueLinked.enqueue {α : Type} (q : QueueLinked α) (v : α) : QueueLinked α :=
  match q.headChain with
  | [] => ⟨[v], true, q.length + 1⟩
  | h :: t => ⟨h :: t ++ [v], true, q.length + 1⟩

/-- `dequeue`: returns the sentinel `none` when `length == 0`; otherwise it
reads `head.right`, which faults (`Except.error`) if `head` were null with
a nonzero length — the success value is the dequeued element and the new
queue, whose `tail` reference is left untouched. -/
def QueueLinked.dequeue {α : Type} (q : QueueLinked α) :
    Except Unit (Option α × QueueLinked α) :=
  if q.length = 0 then Except.ok (none, q)
  else
    match q.headChain with
    | [] => Except.error ()
    | h :: t => Except.ok (some h, ⟨t, q.tailSet, q.length - 1⟩)

/-- One queue operation. -/
inductive QOp (α : Type) where
  | enq (v : α)
  | deq
  deriving DecidableEq

/-- Run a sequence of queue operations, collecting each `dequeue` result in
order; propagates a null-dereference fault. -/
def runQ {α : Type} : QueueLinked α → List (QOp α) → Except Unit (List (Option α) × QueueLinked α)
  | q, [] => Except.ok ([], q)
  | q, QOp.enq v :: ops => runQ (q.enqueue v) ops
  | q, QOp.deq :: ops =>
    match q.dequeue with
    | Except.error e => Except.error e
    | Except.ok (out, q2) =>
      match runQ q2 ops with
      | Except.error e => Except.error e
      | Except.ok (outs, qf) => Except.ok (out :: outs, qf)

/-- Modelled from the spec: the ideal FIFO queue the specification
describes — enqueue appends at the back, dequeue removes the front value
and returns the sentinel `none` on an empty queue.  Returns the collected
dequeue results and the final contents. -/
def runAbs {α : Type} : List α → List (QOp α) → List (Option α) × List α
  | s, [] => ([], s)
  | s, QOp.enq v :: ops => runAbs (s ++ [v]) ops
  | s, QOp.deq :: ops =>
    match s with
    | [] =>
      match runAbs ([] : List α) ops with
      | (outs, f) => (none :: outs, f)
    | h :: t =>
      match runAbs t ops with
      | (outs, f) => (some h :: outs, f)

/-- The well-formedness of reachable queue states: the stored length equals
the chain length, and the cached tail is non-null whenever head is. -/
def QInv {α : Type} (q : QueueLinked α) : Prop :=
  q.length = q.headChain.length ∧ (q.headChain ≠ [] → q.tailSet = true)

-- ----------------------------------------------------------------------
-- String-keyed feed-search BST (app.py `BST.insert`, `BST.dfs_search`)
-- ----------------------------------------------------------------------

/-- ASCII lowering of one character, the effect of Python `str.lower` on
the ASCII text this application stores. -/
def lowerChar (c : Char) : Char :=
  if 'A' ≤ c ∧ c ≤ 'Z' then Char.ofNat (c.toNat + 32) else c

/-- Lower every character. -/
def lowerList (cs : List Char) : List Char := cs.map lowerChar

/-- Python substring membership `w in s` on character lists: some suffix of
`s` starts with `w` (an empty `w` is contained in everything). -/
def listContainsSub (w : List Char) : List Char → Bool
  | [] => w.isEmpty
  | c :: s => List.isPrefixOf w (c :: s) || listContainsSub w s

/-- Python string `<` (lexicographic by code point) as a boolean test. -/
def strLtB : List Char → List Char → Bool
  | [], [] => false
  | [], _ :: _ => true
  | _ :: _, [] => false
  | a :: s, b :: t => if a < b then true else if b < a then false else strLtB s t

/-- The feed-search `BST.insert`: descend with string `<`; ties and
greater both take the `else` branch to the right. -/
def bstStrInsert : BTree String → String → BTree String
  | BTree.nil, s => BTree.node s BTree.nil BTree.nil
  | BTree.node x l r, s =>
    if strLtB s.data x.data then BTree.node x (bstStrInsert l s) r
    else BTree.node x l (bstStrInsert r s)

/-- Root-left-right traversal order of the node values. -/
def preorder {α : Type} : BTree α → List α
  | BTree.nil => []
  | BTree.node v l r => v :: (preorder l ++ preorder r)

/-- The recursive `walk` closure of `BST.dfs_search`: visit the node, test
the lowered value for the lowered query as substring, then walk left, then
right, appending matches in visit order. -/
def walkCollect (w : List Char) : BTree String → List String
  | BTree.nil => []
  | BTree.node v l r =>
    (if listContainsSub w (lowerList v.data) then [v] else []) ++
      walkCollect w l ++ walkCollect w r

/-- `BST.dfs_search`: an empty query short-circuits to `[]` before any
traversal; otherwise the query is lowered once and the tree is walked. -/
def dfs_search (t : BTree String) (word : String) : List String :=
  if word.data = [] then [] else walkCollect (lowerList word.data) t

/-- A value stored in a tree node as the dynamically typed Python code
sees it: either a string, or some other value on which the lower-and-test
expression raises (and the `except` clause swallows the error). -/
inductive PyVal where
  | str (s : String)
  | other
  deriving DecidableEq

/-- The `walk` closure over arbitrary node values: the try/except block
appends string values containing the query and silently skips values that
do not support the test, then recurses into both children regardless. -/
def walkCollectV (w : List Char) : BTree PyVal → List PyVal
  | BTree.nil => []
  | BTree.node v l r =>
    (match v with
     | PyVal.str s =>
       if listContainsSub w (lowerList s.data) then [PyVal.str s] else []
     | PyVal.other => []) ++ walkCollectV w l ++ walkCollectV w r

/-- `dfs_search` over arbitrary node values. -/
def dfs_search_v (t : BTree PyVal) (word : String) : List PyVal :=
  if word.data = [] then [] else walkCollectV (lowerList word.data) t

-- ----------------------------------------------------------------------
-- Integer parsing and the numeric BST routes (app.py `bst_insert_route`,
-- `bst_search_route`, `bst_delete_route`)
-- ----------------------------------------------------------------------

/-- The characters Python `str.strip()` / `int(...)` treat as whitespace. -/
def isSpaceChar (c : Char) : Bool :=
  c = ' ' || c = '\t' || c = '\n' || c = '\r' || c = Char.ofNat 11 || c = Char.ofNat 12

/-- Python `str.strip()`: drop whitespace from both ends. -/
def stripChars (cs : List Char) : List Char :=
  ((cs.dropWhile isSpaceChar).reverse.dropWhile isSpaceChar).reverse

/-- Accumulate the value of a decimal digit run; `none` on a non-digit. -/
def digitsValAux (acc : Nat) : List Char → Option Nat
  | [] => some acc
  | c :: cs =>
    if '0' ≤ c ∧ c ≤ '9' then digitsValAux (acc * 10 + (c.toNat - 48)) cs
    else none

/-- Value of a nonempty all-digit string; `none` otherwise. -/
def digitsVal : List Char → Option Nat
  | [] => none
  | c :: cs => digitsValAux 0 (c :: cs)

/-- Optional sign followed by digits: the shape Python `int(str)` accepts
after its internal whitespace stripping; `none` models the `ValueError`. -/
def parseSigned : List Char → Option Int
  | '+' :: cs => (digitsVal cs).map (fun n => (n : Int))
  | '-' :: cs => (digitsVal cs).map (fun n => -(n : Int))
  | cs => (digitsVal cs).map (fun n => (n : Int))

/-- Python `int(s)` on a string. -/
def pyInt (s : String) : Option Int := parseSigned (stripChars s.data)

/-- `/bst/insert` route body: strip the value, reject blank input, parse
the integer (the value is already stripped, so `int` sees exactly these
characters) and only on success mutate the tree.  Result: the ok flag of
the response and the tree state afterwards. -/
def bst_insert_route (st : BTree Int) (s : String) : Bool × BTree Int :=
  let v := stripChars s.data
  if v = [] then (false, st)
  else
    match parseSigned v with
    | none => (false, st)
    | some n => (true, bst_insert st n)

/-- `/bst/delete` route body: parse the raw value with `int(...)`; on
failure answer an error result leaving the tree unchanged. -/
def bst_delete_route (st : BTree Int) (s : String) : Bool × BTree Int :=
  match pyInt s with
  | none => (false, st)
  | some n => (true, bst_delete st n)

/-- `/bst/search` route body: parse, then search; the tree is never
changed.  Result: (ok flag, found flag, tree state). -/
def bst_search_route (st : BTree Int) (s : String) : Bool × Bool × BTree Int :=
  match pyInt s with
  | none => (false, false, st)
  | some n => (true, bst_search st n, st)


-- ----------------------------------------------------------------------
-- Generic tree level-order insertion (app.py `tree_insert_route`)
-- ----------------------------------------------------------------------

/-- Size measure of a tree (each `nil` slot and node counts). -/
def tsize {A : Type} : BTree A → Nat
  | BTree.nil => 1
  | BTree.node _ l r => 1 + tsize l + tsize r

/-- Total size of the subtrees held in a pending queue. -/
def qweight {A : Type} (q : List (List Bool × BTree A)) : Nat :=
  (q.map (fun e => tsize e.2)).sum

/-- The `while q:` loop of `tree_insert_route` over a pending queue of
(node position, node subtree) pairs: pop the front node; if its left slot
is empty report that slot (side `false`); else if its right slot is empty
report it (side `true`); otherwise enqueue both children and continue.
`none` when the queue is exhausted. -/
def bfs_slot {A : Type} : List (List Bool × BTree A) → Option (List Bool × Bool)
  | [] => none
  | (_, BTree.nil) :: rest => bfs_slot rest
  | (p, BTree.node _ BTree.nil _) :: _ => some (p, false)
  | (p, BTree.node _ (BTree.node _ _ _) BTree.nil) :: _ => some (p, true)
  | (p, BTree.node _ (BTree.node a b c) (BTree.node x y z)) :: rest =>
    bfs_slot (rest ++ [(p ++ [false], BTree.node a b c), (p ++ [true], BTree.node x y z)])
termination_by q => qweight q
decreasing_by
  all_goals simp [qweight, tsize, List.map_append, List.sum_append]
  all_goals omega

/-- Attach a new leaf holding `v` at the child slot `side` (false = left)
of the node reached by `path` (left = false step, right = true step). -/
def attachAt {A : Type} : BTree A → List Bool → Bool → A → BTree A
  | BTree.nil, _, _, _ => BTree.nil
  | BTree.node x l r, [], side, v =>
    if side then BTree.node x l (BTree.node v BTree.nil BTree.nil)
    else BTree.node x (BTree.node v BTree.nil BTree.nil) r
  | BTree.node x l r, b :: p, side, v =>
    if b then BTree.node x l (attachAt r p side v)
    else BTree.node x (attachAt l p side v) r

/-- `tree_insert_route`: an empty tree gets the new node as root;
otherwise run the breadth-first scan from the root and attach the new
leaf at the slot it reports (an exhausted queue — impossible on finite
trees — would leave the tree unchanged, exactly as the Python loop
falling through without `break` would). -/
def tree_insert {A : Type} (t : BTree A) (v : A) : BTree A :=
  match t with
  | BTree.nil => BTree.node v BTree.nil BTree.nil
  | BTree.node _ _ _ =>
    match bfs_slot [([], t)] with
    | some (p, side) => attachAt t p side v
    | none => t

/-- Prefix one step onto the recorded position of a queue entry. -/
def consFst {A : Type} (b : Bool) (e : List Bool × BTree A) : List Bool × BTree A :=
  (b :: e.1, e.2)

/-- Prefix one step onto the recorded position of a slot. -/
def consFstS (b : Bool) (s : List Bool × Bool) : List Bool × Bool :=
  (b :: s.1, s.2)

/-- The entries (position and subtree) of the nodes at depth `d`, listed
left to right. -/
def levelOf {A : Type} : BTree A → Nat → List (List Bool × BTree A)
  | BTree.nil, _ => []
  | BTree.node x l r, 0 => [([], BTree.node x l r)]
  | BTree.node _ l r, d + 1 =>
    (levelOf l d).map (consFst false) ++ (levelOf r d).map (consFst true)

/-- The free child slots one visited node offers, first child slot before
second: `(path, false)` when the left child is missing, `(path, true)`
when the right child is missing. -/
def freeSlotsOfEntry {A : Type} (e : List Bool × BTree A) : List (List Bool × Bool) :=
  match e.2 with
  | BTree.nil => []
  | BTree.node _ l r =>
    (if l.isNil then [(e.1, false)] else []) ++ (if r.isNil then [(e.1, true)] else [])

/-- The children the loop enqueues for a fully occupied node (nothing is
enqueued when one of the child slots was free, or for an empty entry). -/
def entryChildren {A : Type} (e : List Bool × BTree A) : List (List Bool × BTree A) :=
  match e.2 with
  | BTree.node _ (BTree.node a b c) (BTree.node x y z) =>
    [(e.1 ++ [false], BTree.node a b c), (e.1 ++ [true], BTree.node x y z)]
  | _ => []

/-- One breadth-first generation: the enqueued children of every entry. -/
def nextLevel {A : Type} (L : List (List Bool × BTree A)) : List (List Bool × BTree A) :=
  L.flatMap entryChildren

/-- Height of the tree (`bst_height` in the source): 0 for the empty
tree, one plus the larger child height otherwise. -/
def theight {A : Type} : BTree A → Nat
  | BTree.nil => 0
  | BTree.node _ l r => 1 + max (theight l) (theight r)

/-- Modelled from the spec: every free child slot, enumerated level by
level, left to right inside a level, first child slot before second at
each node.  All nodes sit at depths below the height, so scanning the
depths `0 .. theight t` is exhaustive. -/
def specSlotList {A : Type} (t : BTree A) : List (List Bool × Bool) :=
  (List.range (theight t + 1)).flatMap (fun d => (levelOf t d).flatMap freeSlotsOfEntry)

/-- Modelled from the spec: the first free child slot in breadth-first
order. -/
def specSlot {A : Type} (t : BTree A) : Option (List Bool × Bool) :=
  (specSlotList t).head?

/-- Modelled from the spec: insert by attaching the new value at the first
free child slot in breadth-first order; a new root on the empty tree. -/
def specTreeInsert {A : Type} (t : BTree A) (v : A) : BTree A :=
  match specSlot t with
  | some (p, side) => attachAt t p side v
  | none =>
    match t with
    | BTree.nil => BTree.node v BTree.nil BTree.nil
    | BTree.node _ _ _ => t


-- ----------------------------------------------------------------------
-- Theorems
-- ----------------------------------------------------------------------

/-- Claim C1 (counterexample): deleting 3 from the BST built by inserting
[5,3,8,1,4,7,9] does not produce the tree in which 3's key was replaced by
4 with 1 re-linked as 4's left child. -/
theorem C1_counterexample :
    bst_delete (insertList BTree.nil [5, 3, 8, 1, 4, 7, 9]) 3 ≠
      BTree.node 5 (BTree.node 4 (BTree.node 1 BTree.nil BTree.nil) BTree.nil)
        (BTree.node 8 (BTree.node 7 BTree.nil BTree.nil) (BTree.node 9 BTree.nil BTree.nil)) := by
  decide

/-- Claim C1 (amended): in the BST built by inserting [5,3,8,1,4,7,9], the
left subtree of node 3 is the single node 1 (4 sits in 3's right subtree),
so deleting 3 replaces 3's key with 1, the maximum of its left subtree, and
keeps 4 as that node's right child. -/
theorem C1_theorem :
    bst_delete (insertList BTree.nil [5, 3, 8, 1, 4, 7, 9]) 3 =
      BTree.node 5 (BTree.node 1 BTree.nil (BTree.node 4 BTree.nil BTree.nil))
        (BTree.node 8 (BTree.node 7 BTree.nil BTree.nil) (BTree.node 9 BTree.nil BTree.nil)) := by
  decide

theorem pushAll_to_list {α : Type} (vs : List α) (s : Stack α) :
    (pushAll s vs).to_list = vs.reverse ++ s.to_list := by
  induction vs generalizing s with
  | nil => simp [pushAll]
  | cons v vs ih =>
    simp [pushAll, List.foldl_cons] at *
    rw [ih]
    simp [Stack.push, Stack.to_list]

/-- Claim C9: after pushing any sequence of values on a fresh stack,
`to_list` is exactly the reverse of the push sequence (most recent first). -/
theorem C9_theorem {α : Type} (vs : List α) :
    (pushAll Stack.empty vs).to_list = vs.reverse := by
  rw [pushAll_to_list]
  simp [Stack.empty, Stack.to_list]

theorem enqueue_eq {α : Type} (q : QueueLinked α) (v : α) :
    q.enqueue v = ⟨q.headChain ++ [v], true, q.length + 1⟩ := by
  obtain ⟨c, ts, n⟩ := q
  cases c <;> simp [QueueLinked.enqueue]

theorem runQ_deq {α : Type} (q : QueueLinked α) (ops : List (QOp α)) (out : Option α)
    (q2 : QueueLinked α) (h : q.dequeue = Except.ok (out, q2)) :
    runQ q (QOp.deq :: ops) =
      match runQ q2 ops with
      | Except.error e => Except.error e
      | Except.ok (outs, qf) => Except.ok (out :: outs, qf) := by
  simp only [runQ, h]

theorem runQ_spec {α : Type} (ops : List (QOp α)) (q : QueueLinked α) (h : QInv q) :
    ∃ qf, runQ q ops = Except.ok ((runAbs q.headChain ops).1, qf) ∧
      qf.headChain = (runAbs q.headChain ops).2 ∧ QInv qf := by
  induction ops generalizing q with
  | nil =>
    refine ⟨q, ?_, ?_, h⟩
    · simp [runQ, runAbs]
    · simp [runAbs]
  | cons op ops ih =>
    cases op with
    | enq v =>
      have he : q.enqueue v = ⟨q.headChain ++ [v], true, q.length + 1⟩ := enqueue_eq q v
      have hinv : QInv (q.enqueue v) := by
        rw [he]
        exact ⟨by simp [h.1], by simp⟩
      obtain ⟨qf, e1, e2, e3⟩ := ih (q.enqueue v) hinv
      have hc : (q.enqueue v).headChain = q.headChain ++ [v] := by rw [he]
      have habs : runAbs q.headChain (QOp.enq v :: ops) = runAbs (q.headChain ++ [v]) ops := rfl
      refine ⟨qf, ?_, ?_, e3⟩
      · calc runQ q (QOp.enq v :: ops) = runQ (q.enqueue v) ops := rfl
          _ = Except.ok ((runAbs (q.enqueue v).headChain ops).1, qf) := e1
          _ = Except.ok ((runAbs q.headChain (QOp.enq v :: ops)).1, qf) := by rw [hc, habs]
      · rw [e2, hc, habs]
    | deq =>
      cases hq : q.headChain with
      | nil =>
        have hl : q.length = 0 := by rw [h.1, hq]; rfl
        have hdq : q.dequeue = Except.ok (none, q) := by
          simp [QueueLinked.dequeue, hl]
        obtain ⟨qf, e1, e2, e3⟩ := ih q h
        refine ⟨qf, ?_, ?_, e3⟩
        · rw [runQ_deq q ops none q hdq, e1, hq]
          simp [runAbs]
        · rw [e2, hq]
          simp [runAbs]
      | cons x t =>
        have hl : q.length = t.length + 1 := by rw [h.1, hq]; rfl
        have hdq : q.dequeue = Except.ok (some x, ⟨t, q.tailSet, q.length - 1⟩) := by
          simp [QueueLinked.dequeue, hl, hq]
        have hinv : QInv (⟨t, q.tailSet, q.length - 1⟩ : QueueLinked α) := by
          constructor
          · simp [hl]
          · intro hne
            exact h.2 (by rw [hq]; simp)
        obtain ⟨qf, e1, e2, e3⟩ := ih ⟨t, q.tailSet, q.length - 1⟩ hinv
        refine ⟨qf, ?_, ?_, e3⟩
        · rw [runQ_deq q ops (some x) ⟨t, q.tailSet, q.length - 1⟩ hdq, e1]
          simp [runAbs]
        · rw [e2]
          simp [runAbs]

/-- Claim C4 (counterexample): enqueuing one value and dequeuing it leaves
the queue in a reachable state whose cached tail reference is non-null
while the head reference is null — dequeue never resets `tail`. -/
theorem C4_counterexample :
    runQ QueueLinked.empty [QOp.enq (1 : Int), QOp.deq] =
        Except.ok ([some 1], ⟨[], true, 0⟩) ∧
      (⟨[], true, 0⟩ : QueueLinked Int).tailSet = true ∧
      (⟨[], true, 0⟩ : QueueLinked Int).headChain = [] :=
  ⟨rfl, rfl, rfl⟩

/-- Claim C4 (amended): after every sequence of enqueue and dequeue
operations on a fresh linked queue, whenever the head reference is
non-null the cached tail reference is also non-null (the converse of the
claimed implication; the claimed direction fails because dequeue leaves
`tail` pointing at the removed node). -/
theorem C4_theorem (ops : List (QOp Int)) (outs : List (Option Int)) (qf : QueueLinked Int)
    (h : runQ QueueLinked.empty ops = Except.ok (outs, qf)) (hne : qf.headChain ≠ []) :
    qf.tailSet = true := by
  obtain ⟨qf2, e1, e2, e3⟩ :=
    runQ_spec ops QueueLinked.empty ⟨rfl, fun hc => absurd rfl hc⟩
  have heq := h.symm.trans e1
  have : qf = qf2 := by
    injection heq with heq
    exact (Prod.mk.injEq _ _ _ _ ▸ heq).2
  exact this ▸ e3.2 (this ▸ hne)

theorem C4_witness :
    (⟨[(1 : Int)], true, 1⟩ : QueueLinked Int).tailSet = true :=
  C4_theorem [QOp.enq 1] [] ⟨[1], true, 1⟩ rfl (by simp)

/-- Claim C5: running any interleaving of enqueue/dequeue operations on a
fresh linked queue never faults, and the sequence of dequeue results (and
the final contents) coincide with those of the ideal FIFO queue `runAbs`,
which hands back values in exact enqueue order and answers the sentinel
`none` on an empty dequeue. -/
theorem C5_theorem {α : Type} (ops : List (QOp α)) :
    ∃ qf, runQ QueueLinked.empty ops = Except.ok ((runAbs [] ops).1, qf) ∧
      qf.headChain = (runAbs [] ops).2 := by
  obtain ⟨qf, e1, e2, _⟩ :=
    runQ_spec ops QueueLinked.empty ⟨rfl, fun hc => absurd rfl hc⟩
  exact ⟨qf, e1, e2⟩

theorem keyCount_node (a : Int) (b c : BTree Int) (k : Int) :
    keyCount (BTree.node a b c) k = (if a = k then 1 else 0) + keyCount b k + keyCount c k := rfl

theorem allKeys_iff (p : Int → Bool) (t : BTree Int) :
    allKeys p t = true ↔ ∀ k, 0 < keyCount t k → p k = true := by
  induction t with
  | nil => simp [allKeys, keyCount]
  | node x l r ihl ihr =>
    simp only [allKeys, Bool.and_eq_true, ihl, ihr]
    constructor
    · rintro ⟨⟨hx, hl⟩, hr⟩ k hk
      rw [keyCount_node] at hk
      by_cases hxk : x = k
      · exact hxk ▸ hx
      · rw [if_neg hxk] at hk
        have : 0 < keyCount l k ∨ 0 < keyCount r k := by omega
        rcases this with hp | hp
        · exact hl k hp
        · exact hr k hp
    · intro hall
      refine ⟨⟨hall x ?_, fun k hk => hall k ?_⟩, fun k hk => hall k ?_⟩
      · rw [keyCount_node, if_pos rfl]; omega
      · rw [keyCount_node]; omega
      · rw [keyCount_node]; omega

theorem bst_insert_count (t : BTree Int) (v k : Int) :
    keyCount (bst_insert t v) k = keyCount t k + (if v = k then 1 else 0) := by
  induction t with
  | nil => simp [bst_insert, keyCount]
  | node x l r ihl ihr =>
    by_cases h : v < x
    · rw [show bst_insert (BTree.node x l r) v = BTree.node x (bst_insert l v) r from by
        simp [bst_insert, h]]
      rw [keyCount_node, keyCount_node, ihl]
      omega
    · rw [show bst_insert (BTree.node x l r) v = BTree.node x l (bst_insert r v) from by
        simp [bst_insert, h]]
      rw [keyCount_node, keyCount_node, ihr]
      omega

theorem allKeys_insert (p : Int → Bool) (t : BTree Int) (v : Int)
    (ht : allKeys p t = true) (hv : p v = true) : allKeys p (bst_insert t v) = true := by
  induction t with
  | nil => simp [bst_insert, allKeys, hv]
  | node x l r ihl ihr =>
    simp only [allKeys, Bool.and_eq_true] at ht
    by_cases h : v < x
    · simp only [bst_insert, if_pos h, allKeys, Bool.and_eq_true]
      exact ⟨⟨ht.1.1, ihl ht.1.2⟩, ht.2⟩
    · simp only [bst_insert, if_neg h, allKeys, Bool.and_eq_true]
      exact ⟨⟨ht.1.1, ht.1.2⟩, ihr ht.2⟩

theorem bst_insert_weak (t : BTree Int) (v : Int) (h : isBSTWeak t = true) :
    isBSTWeak (bst_insert t v) = true := by
  induction t with
  | nil => simp [bst_insert, isBSTWeak, allKeys]
  | node x l r ihl ihr =>
    simp only [isBSTWeak, Bool.and_eq_true] at h
    obtain ⟨⟨⟨hal, har⟩, hwl⟩, hwr⟩ := h
    by_cases hv : v < x
    · simp only [bst_insert, if_pos hv, isBSTWeak, Bool.and_eq_true]
      refine ⟨⟨⟨allKeys_insert _ _ _ hal ?_, har⟩, ihl hwl⟩, hwr⟩
      simp only [decide_eq_true_eq]
      omega
    · simp only [bst_insert, if_neg hv, isBSTWeak, Bool.and_eq_true]
      refine ⟨⟨⟨hal, allKeys_insert _ _ _ har ?_⟩, hwl⟩, ihr hwr⟩
      simp only [decide_eq_true_eq]
      omega

theorem maxloop_count (r : BTree Int) : ∀ (x : Int) (l : BTree Int),
    0 < keyCount (BTree.node x l r) (bst_find_max_loop x r) := by
  induction r with
  | nil =>
    intro x l
    simp [bst_find_max_loop, keyCount_node]
  | node y rl rr ihrl ihrr =>
    intro x l
    have h := ihrr y rl
    simp only [bst_find_max_loop] at *
    rw [keyCount_node]
    omega

theorem maxloop_ub (r : BTree Int) : ∀ (x : Int) (l : BTree Int),
    isBSTWeak (BTree.node x l r) = true →
    ∀ k, 0 < keyCount (BTree.node x l r) k → k ≤ bst_find_max_loop x r := by
  induction r with
  | nil =>
    intro x l hw k hk
    simp only [bst_find_max_loop]
    simp only [isBSTWeak, Bool.and_eq_true] at hw
    obtain ⟨⟨⟨hal, _⟩, _⟩, _⟩ := hw
    rw [allKeys_iff] at hal
    rw [keyCount_node] at hk
    by_cases hxk : x = k
    · omega
    · rw [if_neg hxk] at hk
      have hlk : 0 < keyCount l k := by
        have : keyCount BTree.nil k = 0 := rfl
        omega
      have := hal k hlk
      simp only [decide_eq_true_eq] at this
      omega
  | node y rl rr ihrl ihrr =>
    intro x l hw k hk
    simp only [isBSTWeak, Bool.and_eq_true] at hw
    obtain ⟨⟨⟨hal, har⟩, hwl⟩, hwr⟩ := hw
    simp only [bst_find_max_loop]
    have hwr2 : isBSTWeak (BTree.node y rl rr) = true := by
      simp only [isBSTWeak, Bool.and_eq_true]
      exact hwr
    have hub := ihrr y rl hwr2
    have hmem := maxloop_count rr y rl
    have hxm : x ≤ bst_find_max_loop y rr := by
      rw [allKeys_iff] at har
      have := har _ hmem
      simpa using this
    rw [keyCount_node] at hk
    by_cases hxk : x = k
    · omega
    · rw [if_neg hxk] at hk
      by_cases hlk : 0 < keyCount l k
      · rw [allKeys_iff] at hal
        have := hal k hlk
        simp only [decide_eq_true_eq] at this
        omega
      · have hrk : 0 < keyCount (BTree.node y rl rr) k := by omega
        exact hub k hrk

theorem keyCount_nil (k : Int) : keyCount BTree.nil k = 0 := rfl

theorem bst_delete_count (t : BTree Int) :
    isBSTWeak t = true → ∀ v k : Int,
      keyCount (bst_delete t v) k = if k = v then keyCount t v - 1 else keyCount t k := by
  induction t with
  | nil =>
    intro _ v k
    simp [bst_delete, keyCount]
  | node x l r ihl ihr =>
    intro h v k
    simp only [isBSTWeak, Bool.and_eq_true] at h
    obtain ⟨⟨⟨hal, har⟩, hwl⟩, hwr⟩ := h
    by_cases h1 : v < x
    · have hrv : keyCount r v = 0 := by
        by_contra hpos
        rw [allKeys_iff] at har
        have := har v (Nat.pos_of_ne_zero hpos)
        simp only [decide_eq_true_eq] at this
        omega
      rw [show bst_delete (BTree.node x l r) v = BTree.node x (bst_delete l v) r from by
        simp [bst_delete, h1]]
      rw [keyCount_node x (bst_delete l v) r k, ihl hwl v k,
        keyCount_node x l r v, keyCount_node x l r k]
      by_cases hkv : k = v
      · subst hkv
        have hxv : ¬ (x = k) := by omega
        rw [if_pos rfl, if_pos rfl, if_neg hxv]
        omega
      · rw [if_neg hkv, if_neg hkv]
    · by_cases h2 : x < v
      · have hlv : keyCount l v = 0 := by
          by_contra hpos
          rw [allKeys_iff] at hal
          have := hal v (Nat.pos_of_ne_zero hpos)
          simp only [decide_eq_true_eq] at this
          omega
        rw [show bst_delete (BTree.node x l r) v = BTree.node x l (bst_delete r v) from by
          simp [bst_delete, h1, h2]]
        rw [keyCount_node x l (bst_delete r v) k, ihr hwr v k,
          keyCount_node x l r v, keyCount_node x l r k]
        by_cases hkv : k = v
        · subst hkv
          have hxv : ¬ (x = k) := by omega
          rw [if_pos rfl, if_pos rfl, if_neg hxv]
          omega
        · rw [if_neg hkv, if_neg hkv]
      · have hvx : v = x := by omega
        subst hvx
        rcases l with _ | ⟨lx, ll, lr⟩
        · rw [show bst_delete (BTree.node v BTree.nil r) v = r from by
            simp [bst_delete]]
          rw [keyCount_node v BTree.nil r v, keyCount_node v BTree.nil r k,
            keyCount_nil, keyCount_nil, if_pos rfl]
          by_cases hkv : k = v
          · subst hkv
            rw [if_pos rfl]
            omega
          · have hvk : ¬ (v = k) := fun hh => hkv hh.symm
            rw [if_neg hkv, if_neg hvk]
            omega
        · rcases r with _ | ⟨rx, rl, rr⟩
          · rw [show bst_delete (BTree.node v (BTree.node lx ll lr) BTree.nil) v =
                BTree.node lx ll lr from by simp [bst_delete]]
            set L := BTree.node lx ll lr with hL
            rw [keyCount_node v L BTree.nil v, keyCount_node v L BTree.nil k,
              keyCount_nil, keyCount_nil, if_pos rfl]
            by_cases hkv : k = v
            · subst hkv
              rw [if_pos rfl]
              omega
            · have hvk : ¬ (v = k) := fun hh => hkv hh.symm
              rw [if_neg hkv, if_neg hvk]
              omega
          · rw [show bst_delete (BTree.node v (BTree.node lx ll lr) (BTree.node rx rl rr)) v =
                BTree.node (bst_find_max_loop lx lr)
                  (bst_delete (BTree.node lx ll lr) (bst_find_max_loop lx lr))
                  (BTree.node rx rl rr) from by simp [bst_delete]]
            set L := BTree.node lx ll lr with hL
            set R := BTree.node rx rl rr with hR
            set m := bst_find_max_loop lx lr with hm
            have hmc : 0 < keyCount L m := maxloop_count lr lx ll
            rw [keyCount_node m (bst_delete L m) R k, ihl hwl m k,
              keyCount_node v L R v, keyCount_node v L R k, if_pos rfl]
            by_cases hkv : k = v
            · subst hkv
              rw [if_pos rfl]
              by_cases hkm : k = m
              · rw [← hkm] at hmc ⊢
                rw [if_pos rfl, if_pos rfl]
                omega
              · have hmk : ¬ (m = k) := fun hh => hkm hh.symm
                rw [if_neg hmk, if_neg hkm]
                omega
            · have hvk : ¬ (v = k) := fun hh => hkv hh.symm
              rw [if_neg hkv, if_neg hvk]
              by_cases hkm : k = m
              · rw [← hkm] at hmc ⊢
                rw [if_pos rfl, if_pos rfl]
                omega
              · have hmk : ¬ (m = k) := fun hh => hkm hh.symm
                rw [if_neg hmk, if_neg hkm]

theorem bst_delete_weak (t : BTree Int) :
    isBSTWeak t = true → ∀ v : Int, isBSTWeak (bst_delete t v) = true := by
  induction t with
  | nil =>
    intro _ v
    simp [bst_delete, isBSTWeak]
  | node x l r ihl ihr =>
    intro h v
    simp only [isBSTWeak, Bool.and_eq_true] at h
    obtain ⟨⟨⟨hal, har⟩, hwl⟩, hwr⟩ := h
    by_cases h1 : v < x
    · rw [show bst_delete (BTree.node x l r) v = BTree.node x (bst_delete l v) r from by
        simp [bst_delete, h1]]
      rw [show isBSTWeak (BTree.node x (bst_delete l v) r) =
          (allKeys (fun k => decide (k ≤ x)) (bst_delete l v) &&
            allKeys (fun k => decide (x ≤ k)) r &&
            isBSTWeak (bst_delete l v) && isBSTWeak r) from rfl]
      simp only [Bool.and_eq_true]
      refine ⟨⟨⟨?_, har⟩, ihl hwl v⟩, hwr⟩
      rw [allKeys_iff] at hal ⊢
      intro k hk
      have hdc := bst_delete_count l hwl v k
      apply hal k
      by_cases hkv : k = v
      · subst hkv
        rw [if_pos rfl] at hdc
        omega
      · rw [if_neg hkv] at hdc
        omega
    · by_cases h2 : x < v
      · rw [show bst_delete (BTree.node x l r) v = BTree.node x l (bst_delete r v) from by
          simp [bst_delete, h1, h2]]
        rw [show isBSTWeak (BTree.node x l (bst_delete r v)) =
            (allKeys (fun k => decide (k ≤ x)) l &&
              allKeys (fun k => decide (x ≤ k)) (bst_delete r v) &&
              isBSTWeak l && isBSTWeak (bst_delete r v)) from rfl]
        simp only [Bool.and_eq_true]
        refine ⟨⟨⟨hal, ?_⟩, hwl⟩, ihr hwr v⟩
        rw [allKeys_iff] at har ⊢
        intro k hk
        have hdc := bst_delete_count r hwr v k
        apply har k
        by_cases hkv : k = v
        · subst hkv
          rw [if_pos rfl] at hdc
          omega
        · rw [if_neg hkv] at hdc
          omega
      · have hvx : v = x := by omega
        subst hvx
        rcases l with _ | ⟨lx, ll, lr⟩
        · rw [show bst_delete (BTree.node v BTree.nil r) v = r from by
            simp [bst_delete]]
          exact hwr
        · rcases r with _ | ⟨rx, rl, rr⟩
          · rw [show bst_delete (BTree.node v (BTree.node lx ll lr) BTree.nil) v =
                BTree.node lx ll lr from by simp [bst_delete]]
            exact hwl
          · rw [show bst_delete (BTree.node v (BTree.node lx ll lr) (BTree.node rx rl rr)) v =
                BTree.node (bst_find_max_loop lx lr)
                  (bst_delete (BTree.node lx ll lr) (bst_find_max_loop lx lr))
                  (BTree.node rx rl rr) from by simp [bst_delete]]
            set L := BTree.node lx ll lr with hL
            set R := BTree.node rx rl rr with hR
            set m := bst_find_max_loop lx lr with hm
            rw [show isBSTWeak (BTree.node m (bst_delete L m) R) =
                (allKeys (fun k => decide (k ≤ m)) (bst_delete L m) &&
                  allKeys (fun k => decide (m ≤ k)) R &&
                  isBSTWeak (bst_delete L m) && isBSTWeak R) from rfl]
            simp only [Bool.and_eq_true]
            refine ⟨⟨⟨?_, ?_⟩, ihl hwl m⟩, hwr⟩
            · rw [allKeys_iff]
              intro k hk
              have hdc := bst_delete_count L hwl m k
              have hkl : 0 < keyCount L k := by
                by_cases hkm : k = m
                · subst hkm
                  rw [if_pos rfl] at hdc
                  omega
                · rw [if_neg hkm] at hdc
                  omega
              have hub := maxloop_ub lr lx ll hwl k hkl
              simp only [decide_eq_true_eq]
              exact hub
            · rw [allKeys_iff] at har ⊢
              intro k hk
              have hmleq : m ≤ v := by
                have hmc : 0 < keyCount L m := maxloop_count lr lx ll
                rw [allKeys_iff] at hal
                have := hal m hmc
                simpa using this
              have := har k hk
              simp only [decide_eq_true_eq] at this ⊢
              omega

theorem bst_search_iff (t : BTree Int) :
    isBSTWeak t = true → ∀ k : Int, (bst_search t k = true ↔ 0 < keyCount t k) := by
  induction t with
  | nil =>
    intro _ k
    simp [bst_search, keyCount]
  | node x l r ihl ihr =>
    intro h k
    simp only [isBSTWeak, Bool.and_eq_true] at h
    obtain ⟨⟨⟨hal, har⟩, hwl⟩, hwr⟩ := h
    by_cases hxk : x = k
    · rw [show bst_search (BTree.node x l r) k = true from by simp [bst_search, hxk]]
      rw [keyCount_node x l r k, if_pos hxk]
      simp only [true_iff]
      omega
    · by_cases hlt : k < x
      · have hr0 : keyCount r k = 0 := by
          by_contra hpos
          rw [allKeys_iff] at har
          have := har k (Nat.pos_of_ne_zero hpos)
          simp only [decide_eq_true_eq] at this
          omega
        rw [show bst_search (BTree.node x l r) k = bst_search l k from by
          simp [bst_search, hxk, hlt]]
        rw [ihl hwl k, keyCount_node x l r k, if_neg hxk]
        omega
      · have hl0 : keyCount l k = 0 := by
          by_contra hpos
          rw [allKeys_iff] at hal
          have := hal k (Nat.pos_of_ne_zero hpos)
          simp only [decide_eq_true_eq] at this
          omega
        rw [show bst_search (BTree.node x l r) k = bst_search r k from by
          simp [bst_search, hxk, hlt]]
        rw [ihr hwr k, keyCount_node x l r k, if_neg hxk]
        omega

theorem countIn_pos_iff (vs : List Int) (k : Int) : 0 < countIn vs k ↔ k ∈ vs := by
  induction vs with
  | nil => simp [countIn]
  | cons v vs ih =>
    simp only [countIn, List.mem_cons]
    by_cases h : v = k
    · subst h
      simp
    · have h2 : ¬ k = v := fun hh => h hh.symm
      simp [h, h2, ih]

theorem countIn_nodup_le_one (vs : List Int) (h : vs.Nodup) (k : Int) : countIn vs k ≤ 1 := by
  induction vs with
  | nil => simp [countIn]
  | cons v vs ih =>
    rw [List.nodup_cons] at h
    by_cases hv : v = k
    · subst hv
      have hz : countIn vs v = 0 := by
        by_contra hc
        exact h.1 ((countIn_pos_iff vs v).1 (Nat.pos_of_ne_zero hc))
      simp [countIn, hz]
    · simp only [countIn, if_neg hv]
      have := ih h.2
      omega

theorem insertList_count (vs : List Int) : ∀ (t : BTree Int) (k : Int),
    keyCount (insertList t vs) k = keyCount t k + countIn vs k := by
  induction vs with
  | nil =>
    intro t k
    simp [insertList, countIn]
  | cons v vs ih =>
    intro t k
    rw [show insertList t (v :: vs) = insertList (bst_insert t v) vs from rfl]
    rw [ih (bst_insert t v) k, bst_insert_count]
    rw [show countIn (v :: vs) k = (if v = k then 1 else 0) + countIn vs k from rfl]
    omega

theorem insertList_weak (vs : List Int) : ∀ t : BTree Int, isBSTWeak t = true →
    isBSTWeak (insertList t vs) = true := by
  induction vs with
  | nil =>
    intro t h
    simpa [insertList] using h
  | cons v vs ih =>
    intro t h
    rw [show insertList t (v :: vs) = insertList (bst_insert t v) vs from rfl]
    exact ih (bst_insert t v) (bst_insert_weak t v h)

theorem deleteList_weak (ds : List Int) : ∀ t : BTree Int, isBSTWeak t = true →
    isBSTWeak (deleteList t ds) = true := by
  induction ds with
  | nil =>
    intro t h
    simpa [deleteList] using h
  | cons d ds ih =>
    intro t h
    rw [show deleteList t (d :: ds) = deleteList (bst_delete t d) ds from rfl]
    exact ih (bst_delete t d) (bst_delete_weak t h d)

theorem deleteList_count (ds : List Int) : ∀ t : BTree Int, isBSTWeak t = true → ∀ k : Int,
    keyCount (deleteList t ds) k = keyCount t k - countIn ds k := by
  induction ds with
  | nil =>
    intro t _ k
    simp [deleteList, countIn]
  | cons d ds ih =>
    intro t h k
    rw [show deleteList t (d :: ds) = deleteList (bst_delete t d) ds from rfl]
    rw [ih (bst_delete t d) (bst_delete_weak t h d) k, bst_delete_count t h d k]
    rw [show countIn (d :: ds) k = (if d = k then 1 else 0) + countIn ds k from rfl]
    by_cases hkd : k = d
    · subst hkd
      rw [if_pos rfl, if_pos rfl]
      omega
    · have hdk : ¬ (d = k) := fun hh => hkd hh.symm
      rw [if_neg hkd, if_neg hdk]
      omega

theorem applyOps_weak (ops : List BSTOp) : ∀ t : BTree Int, isBSTWeak t = true →
    isBSTWeak (ops.foldl applyOp t) = true := by
  induction ops with
  | nil =>
    intro t h
    simpa using h
  | cons op ops ih =>
    intro t h
    cases op with
    | ins v => exact ih (bst_insert t v) (bst_insert_weak t v h)
    | del v => exact ih (bst_delete t v) (bst_delete_weak t h v)

/-- Claim C2 (counterexample): inserting 10, 5, 5, 20 and then deleting 10
promotes the duplicate 5 from the left subtree into the root, leaving a 5
in the left subtree of the root key 5 — the strict left inequality of the
claimed invariant fails on this insert/delete sequence. -/
theorem C2_counterexample :
    isBSTStrict (applyOps
      [BSTOp.ins 10, BSTOp.ins 5, BSTOp.ins 5, BSTOp.ins 20, BSTOp.del 10]) = false := by
  decide

/-- Claim C2 (amended): after every sequence of insert and delete
operations on an initially empty BST, the tree satisfies the invariant
with the strict left inequality weakened to less-or-equal: at every node,
all keys in its left subtree are ≤ the node's key and all keys in its
right subtree are ≥ the node's key.  (Insertion alone routes ties right
and keeps the left side strict, but deleting a two-child node promotes the
maximum of its left subtree into the node, and with duplicate keys an
equal key can remain in the left subtree.) -/
theorem C2_theorem (ops : List BSTOp) : isBSTWeak (applyOps ops) = true :=
  applyOps_weak ops BTree.nil rfl

/-- Claim C3: insert any duplicate-free list of integers into an empty
BST, then run any sequence of deletions; `bst_search k` answers true
exactly when `k` was inserted and does not occur among the deletions. -/
theorem C3_theorem (ins ds : List Int) (hnd : ins.Nodup) (k : Int) :
    bst_search (deleteList (insertList BTree.nil ins) ds) k = true ↔
      (k ∈ ins ∧ k ∉ ds) := by
  have hw0 : isBSTWeak (insertList BTree.nil ins) = true :=
    insertList_weak ins BTree.nil rfl
  have hwd : isBSTWeak (deleteList (insertList BTree.nil ins) ds) = true :=
    deleteList_weak ds _ hw0
  rw [bst_search_iff _ hwd k, deleteList_count ds _ hw0 k, insertList_count ins BTree.nil k,
    keyCount_nil]
  have h1 := countIn_nodup_le_one ins hnd k
  rw [show (k ∈ ins) = (0 < countIn ins k) from propext (countIn_pos_iff ins k).symm]
  rw [show (k ∉ ds) = ¬ (0 < countIn ds k) from by rw [countIn_pos_iff]]
  omega

theorem C3_witness :
    ([5, 3, 8] : List Int).Nodup ∧
      (bst_search (deleteList (insertList BTree.nil [5, 3, 8]) [3]) 3 = true ↔
        ((3 : Int) ∈ [5, 3, 8] ∧ (3 : Int) ∉ ([3] : List Int))) :=
  ⟨by decide, C3_theorem [5, 3, 8] [3] (by decide) 3⟩

theorem walkCollect_filter (w : List Char) (t : BTree String) :
    walkCollect w t =
      (preorder t).filter (fun v => listContainsSub w (lowerList v.data)) := by
  induction t with
  | nil => simp [walkCollect, preorder]
  | node v l r ihl ihr =>
    by_cases h : listContainsSub w (lowerList v.data) <;>
      simp [walkCollect, preorder, ihl, ihr, h, List.filter_append, List.filter_cons]

/-- Claim C7: for every tree of string titles and nonempty query, the
depth-first substring search returns exactly the stored values whose
lowered text contains the lowered query, in root-left-right traversal
order; the empty query returns `[]` (no traversal); and on a tree built
from the three sample titles, the query "tree" returns exactly
["Binary Trees"]. -/
theorem C7_theorem :
    (∀ (t : BTree String) (w : String), w.data ≠ [] →
        dfs_search t w =
          (preorder t).filter
            (fun v => listContainsSub (lowerList w.data) (lowerList v.data))) ∧
      (∀ t : BTree String, dfs_search t "" = []) ∧
      dfs_search
          (["Intro to Stacks", "Queue Basics", "Binary Trees"].foldl bstStrInsert BTree.nil)
          "tree" = ["Binary Trees"] := by
  refine ⟨?_, ?_, ?_⟩
  · intro t w hw
    rw [dfs_search, if_neg hw]
    exact walkCollect_filter (lowerList w.data) t
  · intro t
    rfl
  · decide

theorem C7_witness :
    dfs_search (BTree.node "Ab" BTree.nil BTree.nil) "a" =
      (preorder (BTree.node "Ab" BTree.nil BTree.nil)).filter
        (fun v => listContainsSub (lowerList "a".data) (lowerList v.data)) :=
  C7_theorem.1 (BTree.node "Ab" BTree.nil BTree.nil) "a" (by decide)

theorem walkCollectV_filterMap (w : List Char) (t : BTree PyVal) :
    walkCollectV w t =
      (preorder t).filterMap (fun v =>
        match v with
        | PyVal.str s =>
          if listContainsSub w (lowerList s.data) then some (PyVal.str s) else none
        | PyVal.other => none) := by
  induction t with
  | nil => simp [walkCollectV, preorder]
  | node v l r ihl ihr =>
    cases v with
    | str s =>
      by_cases h : listContainsSub w (lowerList s.data) <;>
        simp [walkCollectV, preorder, ihl, ihr, h, List.filterMap_append, List.filterMap_cons]
    | other =>
      simp [walkCollectV, preorder, ihl, ihr, List.filterMap_append, List.filterMap_cons]

/-- Claim C10: over trees holding arbitrary values, the (total) search
function returns, for a nonempty query, exactly the string-valued nodes
whose lowered text contains the query, in preorder over the entire tree:
a value that does not support the test is omitted from the results while
both of its subtrees are still traversed, and no error escapes. -/
theorem C10_theorem (t : BTree PyVal) (w : String) (hw : w.data ≠ []) :
    dfs_search_v t w =
      (preorder t).filterMap (fun v =>
        match v with
        | PyVal.str s =>
          if listContainsSub (lowerList w.data) (lowerList s.data) then some (PyVal.str s)
          else none
        | PyVal.other => none) := by
  rw [dfs_search_v, if_neg hw]
  exact walkCollectV_filterMap (lowerList w.data) t

theorem C10_witness :
    dfs_search_v
        (BTree.node PyVal.other (BTree.node (PyVal.str "x") BTree.nil BTree.nil) BTree.nil)
        "x" =
      (preorder
          (BTree.node PyVal.other (BTree.node (PyVal.str "x") BTree.nil BTree.nil) BTree.nil)).filterMap
        (fun v =>
          match v with
          | PyVal.str s =>
            if listContainsSub (lowerList "x".data) (lowerList s.data) then some (PyVal.str s)
            else none
          | PyVal.other => none) :=
  C10_theorem (BTree.node PyVal.other (BTree.node (PyVal.str "x") BTree.nil BTree.nil) BTree.nil)
    "x" (by decide)

/-- Claim C8: when the supplied value fails to parse as an integer, each
numeric BST route (insert, search, delete) returns an explicit error
result and leaves the tree state unchanged; the embedded route bodies are
total functions, so no unhandled exception is raised. -/
theorem C8_theorem (st : BTree Int) (s : String) (h : pyInt s = none) :
    bst_insert_route st s = (false, st) ∧
      bst_delete_route st s = (false, st) ∧
      bst_search_route st s = (false, false, st) := by
  refine ⟨?_, ?_, ?_⟩
  · rw [pyInt] at h
    by_cases hv : stripChars s.data = []
    · simp [bst_insert_route, hv]
    · simp [bst_insert_route, hv, h]
  · simp [bst_delete_route, h]
  · simp [bst_search_route, h]

theorem C8_witness :
    pyInt "abc" = none ∧
      (bst_insert_route BTree.nil "abc" = (false, BTree.nil) ∧
        bst_delete_route BTree.nil "abc" = (false, BTree.nil) ∧
        bst_search_route BTree.nil "abc" = (false, false, BTree.nil)) :=
  ⟨rfl, C8_theorem BTree.nil "abc" rfl⟩

theorem freeSlots_consFst {A : Type} (b : Bool) (e : List Bool × BTree A) :
    freeSlotsOfEntry (consFst b e) = (freeSlotsOfEntry e).map (consFstS b) := by
  obtain ⟨p, t⟩ := e
  cases t with
  | nil => rfl
  | node x l r =>
    cases l <;> cases r <;> simp [freeSlotsOfEntry, consFst, consFstS, BTree.isNil]

theorem entryChildren_consFst {A : Type} (b : Bool) (e : List Bool × BTree A) :
    entryChildren (consFst b e) = (entryChildren e).map (consFst b) := by
  obtain ⟨p, t⟩ := e
  cases t with
  | nil => rfl
  | node x l r => cases l <;> cases r <;> simp [entryChildren, consFst]

theorem bfs_found {A : Type} (L : List (List Bool × BTree A)) :
    ∀ (acc : List (List Bool × BTree A)) (s : List Bool × Bool),
      (L.flatMap freeSlotsOfEntry).head? = some s → bfs_slot (L ++ acc) = some s := by
  induction L with
  | nil =>
    intro acc s h
    simp at h
  | cons e L ih =>
    intro acc s h
    obtain ⟨p, t⟩ := e
    cases t with
    | nil =>
      rw [List.flatMap_cons, show freeSlotsOfEntry ((p, BTree.nil) : List Bool × BTree A) = []
        from rfl, List.nil_append] at h
      rw [List.cons_append, show bfs_slot ((p, BTree.nil) :: (L ++ acc)) = bfs_slot (L ++ acc)
        from by simp [bfs_slot]]
      exact ih acc s h
    | node x l r =>
      cases l with
      | nil =>
        have hfs : freeSlotsOfEntry ((p, BTree.node x BTree.nil r) : List Bool × BTree A) =
            (p, false) :: (if r.isNil then [(p, true)] else []) := by
          cases r <;> simp [freeSlotsOfEntry, BTree.isNil]
        rw [List.flatMap_cons, hfs, List.cons_append, List.head?_cons] at h
        have hs : s = (p, false) := by
          injection h with h2
          exact h2.symm
        subst hs
        rw [List.cons_append]
        simp [bfs_slot]
      | node a b c =>
        cases r with
        | nil =>
          have hfs : freeSlotsOfEntry
              ((p, BTree.node x (BTree.node a b c) BTree.nil) : List Bool × BTree A) =
              [(p, true)] := by
            simp [freeSlotsOfEntry, BTree.isNil]
          rw [List.flatMap_cons, hfs, List.cons_append, List.head?_cons] at h
          have hs : s = (p, true) := by
            injection h with h2
            exact h2.symm
          subst hs
          rw [List.cons_append]
          simp [bfs_slot]
        | node a2 b2 c2 =>
          have hfs : freeSlotsOfEntry
              ((p, BTree.node x (BTree.node a b c) (BTree.node a2 b2 c2)) :
                List Bool × BTree A) = [] := by
            simp [freeSlotsOfEntry, BTree.isNil]
          rw [List.flatMap_cons, hfs, List.nil_append] at h
          rw [List.cons_append, show bfs_slot
              ((p, BTree.node x (BTree.node a b c) (BTree.node a2 b2 c2)) :: (L ++ acc)) =
              bfs_slot ((L ++ acc) ++
                [(p ++ [false], BTree.node a b c), (p ++ [true], BTree.node a2 b2 c2)])
            from by simp [bfs_slot]]
          rw [List.append_assoc]
          exact ih (acc ++ [(p ++ [false], BTree.node a b c),
            (p ++ [true], BTree.node a2 b2 c2)]) s h

theorem bfs_none {A : Type} (L : List (List Bool × BTree A)) :
    ∀ (acc : List (List Bool × BTree A)),
      (L.flatMap freeSlotsOfEntry).head? = none →
        bfs_slot (L ++ acc) = bfs_slot (acc ++ nextLevel L) := by
  induction L with
  | nil =>
    intro acc _
    rw [List.nil_append, show nextLevel ([] : List (List Bool × BTree A)) = [] from rfl,
      List.append_nil]
  | cons e L ih =>
    intro acc h
    obtain ⟨p, t⟩ := e
    have hnl : nextLevel (((p, t) : List Bool × BTree A) :: L) =
        entryChildren (p, t) ++ nextLevel L := List.flatMap_cons _ _ _
    cases t with
    | nil =>
      rw [List.flatMap_cons, show freeSlotsOfEntry ((p, BTree.nil) : List Bool × BTree A) = []
        from rfl, List.nil_append] at h
      rw [List.cons_append, show bfs_slot ((p, BTree.nil) :: (L ++ acc)) = bfs_slot (L ++ acc)
        from by simp [bfs_slot]]
      rw [hnl, show entryChildren ((p, BTree.nil) : List Bool × BTree A) = [] from rfl,
        List.nil_append]
      exact ih acc h
    | node x l r =>
      cases l with
      | nil =>
        exfalso
        have hfs : freeSlotsOfEntry ((p, BTree.node x BTree.nil r) : List Bool × BTree A) =
            (p, false) :: (if r.isNil then [(p, true)] else []) := by
          cases r <;> simp [freeSlotsOfEntry, BTree.isNil]
        rw [List.flatMap_cons, hfs, List.cons_append, List.head?_cons] at h
        exact Option.noConfusion h
      | node a b c =>
        cases r with
        | nil =>
          exfalso
          have hfs : freeSlotsOfEntry
              ((p, BTree.node x (BTree.node a b c) BTree.nil) : List Bool × BTree A) =
              [(p, true)] := by
            simp [freeSlotsOfEntry, BTree.isNil]
          rw [List.flatMap_cons, hfs, List.cons_append, List.head?_cons] at h
          exact Option.noConfusion h
        | node a2 b2 c2 =>
          have hfs : freeSlotsOfEntry
              ((p, BTree.node x (BTree.node a b c) (BTree.node a2 b2 c2)) :
                List Bool × BTree A) = [] := by
            simp [freeSlotsOfEntry, BTree.isNil]
          rw [List.flatMap_cons, hfs, List.nil_append] at h
          rw [List.cons_append, show bfs_slot
              ((p, BTree.node x (BTree.node a b c) (BTree.node a2 b2 c2)) :: (L ++ acc)) =
              bfs_slot ((L ++ acc) ++
                [(p ++ [false], BTree.node a b c), (p ++ [true], BTree.node a2 b2 c2)])
            from by simp [bfs_slot]]
          rw [List.append_assoc]
          rw [ih (acc ++ [(p ++ [false], BTree.node a b c),
            (p ++ [true], BTree.node a2 b2 c2)]) h]
          rw [hnl, show entryChildren
              ((p, BTree.node x (BTree.node a b c) (BTree.node a2 b2 c2)) :
                List Bool × BTree A) =
              [(p ++ [false], BTree.node a b c), (p ++ [true], BTree.node a2 b2 c2)]
            from rfl]
          rw [List.append_assoc]

theorem nextLevel_mapCons {A : Type} (b : Bool) (L : List (List Bool × BTree A)) :
    nextLevel (L.map (consFst b)) = (nextLevel L).map (consFst b) := by
  rw [nextLevel, nextLevel, List.flatMap_map, List.map_flatMap]
  simp only [entryChildren_consFst]

theorem freeSlots_flatMap_mapCons {A : Type} (b : Bool) (L : List (List Bool × BTree A)) :
    (L.map (consFst b)).flatMap freeSlotsOfEntry =
      (L.flatMap freeSlotsOfEntry).map (consFstS b) := by
  rw [List.flatMap_map, List.map_flatMap]
  simp only [freeSlots_consFst]

theorem nextLevel_levelOf {A : Type} (t : BTree A) : ∀ d : Nat,
    (levelOf t d).flatMap freeSlotsOfEntry = [] →
      nextLevel (levelOf t d) = levelOf t (d + 1) := by
  induction t with
  | nil =>
    intro d _
    rfl
  | node x l r ihl ihr =>
    intro d h
    cases d with
    | zero =>
      cases l with
      | nil =>
        exfalso
        rw [show levelOf (BTree.node x BTree.nil r) 0 =
          [([], BTree.node x BTree.nil r)] from rfl, List.flatMap_cons] at h
        have hfs : freeSlotsOfEntry (([], BTree.node x BTree.nil r) : List Bool × BTree A) =
            ([], false) :: (if r.isNil then [([], true)] else []) := by
          cases r <;> simp [freeSlotsOfEntry, BTree.isNil]
        rw [hfs] at h
        simp at h
      | node a b c =>
        cases r with
        | nil =>
          exfalso
          rw [show levelOf (BTree.node x (BTree.node a b c) BTree.nil) 0 =
            [([], BTree.node x (BTree.node a b c) BTree.nil)] from rfl,
            List.flatMap_cons] at h
          have hfs : freeSlotsOfEntry
              (([], BTree.node x (BTree.node a b c) BTree.nil) : List Bool × BTree A) =
              [([], true)] := by
            simp [freeSlotsOfEntry, BTree.isNil]
          rw [hfs] at h
          simp at h
        | node a2 b2 c2 => rfl
    | succ d =>
      rw [show levelOf (BTree.node x l r) (d + 1) =
        (levelOf l d).map (consFst false) ++ (levelOf r d).map (consFst true) from rfl] at h ⊢
      rw [List.flatMap_append] at h
      obtain ⟨h1, h2⟩ := List.append_eq_nil.mp h
      have hl : (levelOf l d).flatMap freeSlotsOfEntry = [] := by
        rw [freeSlots_flatMap_mapCons] at h1
        exact List.map_eq_nil_iff.mp h1
      have hr : (levelOf r d).flatMap freeSlotsOfEntry = [] := by
        rw [freeSlots_flatMap_mapCons] at h2
        exact List.map_eq_nil_iff.mp h2
      rw [nextLevel, List.flatMap_append, ← nextLevel, ← nextLevel,
        nextLevel_mapCons, nextLevel_mapCons, ihl d hl, ihr d hr]
      rfl

theorem levelOf_empty {A : Type} (t : BTree A) : ∀ d : Nat, theight t ≤ d → levelOf t d = [] := by
  induction t with
  | nil =>
    intro d _
    rfl
  | node x l r ihl ihr =>
    intro d hd
    rw [show theight (BTree.node x l r) = 1 + max (theight l) (theight r) from rfl] at hd
    cases d with
    | zero => omega
    | succ d =>
      have hml := le_max_left (theight l) (theight r)
      have hmr := le_max_right (theight l) (theight r)
      rw [show levelOf (BTree.node x l r) (d + 1) =
        (levelOf l d).map (consFst false) ++ (levelOf r d).map (consFst true) from rfl,
        ihl d (by omega), ihr d (by omega)]
      rfl

theorem bfs_levels {A : Type} (t : BTree A) : ∀ (n d : Nat), theight t ≤ d + n →
    bfs_slot (levelOf t d) =
      ((List.range n).flatMap
        (fun i => (levelOf t (d + i)).flatMap freeSlotsOfEntry)).head? := by
  intro n
  induction n with
  | zero =>
    intro d hd
    rw [levelOf_empty t d (by omega)]
    rw [show bfs_slot ([] : List (List Bool × BTree A)) = none from by simp [bfs_slot]]
    rfl
  | succ n ih =>
    intro d hd
    rw [List.range_succ_eq_map, List.flatMap_cons, List.head?_append, List.flatMap_map]
    cases hf : ((levelOf t d).flatMap freeSlotsOfEntry).head? with
    | some s =>
      have h1 := bfs_found (levelOf t d) [] s hf
      rw [List.append_nil] at h1
      rw [h1]
      rw [show (d + 0) = d from rfl, hf]
      rfl
    | none =>
      have h1 := bfs_none (levelOf t d) [] hf
      rw [List.append_nil, List.nil_append] at h1
      have h2 : nextLevel (levelOf t d) = levelOf t (d + 1) :=
        nextLevel_levelOf t d (List.head?_eq_none_iff.mp hf)
      rw [h1, h2, ih (d + 1) (by omega)]
      rw [show (d + 0) = d from rfl, hf, Option.none_or]
      have harith : ∀ i : Nat, d + 1 + i = d + Nat.succ i := fun i => by omega
      simp only [harith]

theorem bfs_eq_spec {A : Type} (t : BTree A) : bfs_slot [([], t)] = specSlot t := by
  cases t with
  | nil =>
    rw [show bfs_slot [(([] : List Bool), (BTree.nil : BTree A))] = none from by
      simp [bfs_slot]]
    rfl
  | node x l r =>
    have h0 : levelOf (BTree.node x l r) 0 = [([], BTree.node x l r)] := rfl
    have hmain := bfs_levels (BTree.node x l r) (theight (BTree.node x l r) + 1) 0 (by omega)
    rw [h0] at hmain
    rw [hmain, specSlot, specSlotList]
    have harith : ∀ i : Nat, (0 : Nat) + i = i := fun i => by omega
    simp only [harith]

theorem free_exists {A : Type} (t : BTree A) : t.isNil = false →
    ∃ d, d < theight t ∧ (levelOf t d).flatMap freeSlotsOfEntry ≠ [] := by
  induction t with
  | nil =>
    intro h
    exact absurd h (by simp [BTree.isNil])
  | node x l r ihl ihr =>
    intro _
    cases l with
    | nil =>
      refine ⟨0, ?_, ?_⟩
      · rw [show theight (BTree.node x BTree.nil r) =
          1 + max (theight BTree.nil) (theight r) from rfl]
        omega
      · rw [show levelOf (BTree.node x BTree.nil r) 0 =
          [([], BTree.node x BTree.nil r)] from rfl, List.flatMap_cons]
        have hfs : freeSlotsOfEntry (([], BTree.node x BTree.nil r) : List Bool × BTree A) =
            ([], false) :: (if r.isNil then [([], true)] else []) := by
          cases r <;> simp [freeSlotsOfEntry, BTree.isNil]
        rw [hfs]
        simp
    | node a b c =>
      obtain ⟨d, hd, hne⟩ := ihl rfl
      refine ⟨d + 1, ?_, ?_⟩
      · have := le_max_left (theight (BTree.node a b c)) (theight r)
        rw [show theight (BTree.node x (BTree.node a b c) r) =
          1 + max (theight (BTree.node a b c)) (theight r) from rfl]
        omega
      · rw [show levelOf (BTree.node x (BTree.node a b c) r) (d + 1) =
          (levelOf (BTree.node a b c) d).map (consFst false) ++
            (levelOf r d).map (consFst true) from rfl]
        rw [List.flatMap_append, freeSlots_flatMap_mapCons]
        intro hcontra
        obtain ⟨h1, h2⟩ := List.append_eq_nil.mp hcontra
        exact hne (List.map_eq_nil_iff.mp h1)

theorem specSlot_isSome {A : Type} (t : BTree A) : (specSlot t).isSome = !t.isNil := by
  cases t with
  | nil => rfl
  | node x l r =>
    obtain ⟨d, hd, hne⟩ := free_exists (BTree.node x l r) rfl
    obtain ⟨s, hs⟩ := List.exists_mem_of_ne_nil _ hne
    have hmem : s ∈ specSlotList (BTree.node x l r) := by
      rw [specSlotList]
      exact List.mem_flatMap.mpr ⟨d, List.mem_range.mpr (by omega), hs⟩
    have hne2 : specSlotList (BTree.node x l r) ≠ [] := List.ne_nil_of_mem hmem
    rw [show (BTree.node x l r).isNil = false from rfl, specSlot]
    cases hsl : specSlotList (BTree.node x l r) with
    | nil => exact absurd hsl hne2
    | cons a as => rfl

theorem tree_insert_eq_spec {A : Type} (t : BTree A) (v : A) :
    tree_insert t v = specTreeInsert t v := by
  cases t with
  | nil => rfl
  | node x l r =>
    rw [show tree_insert (BTree.node x l r) v =
        (match bfs_slot [(([] : List Bool), BTree.node x l r)] with
         | some (p, side) => attachAt (BTree.node x l r) p side v
         | none => BTree.node x l r) from rfl]
    rw [bfs_eq_spec]
    cases hs : specSlot (BTree.node x l r) with
    | none => simp [specTreeInsert, hs]
    | some s =>
      obtain ⟨p, side⟩ := s
      simp [specTreeInsert, hs]

/-- Claim C6: generic-tree insertion attaches each new node at the first
free child slot in breadth-first order: it coincides on every tree with
the spec-model `specTreeInsert`, which walks the free slots level by
level, left to right within a level, first child slot before second at
each node (and `specSlot` reports a slot exactly on the non-empty trees);
in particular inserting A, B, C, D, E in order into an empty tree yields
root A with left child B and right child C, where B's left child is D and
B's right child is E. -/
theorem C6_theorem :
    (∀ (A : Type) (t : BTree A) (v : A), tree_insert t v = specTreeInsert t v) ∧
      (∀ (A : Type) (t : BTree A), (specSlot t).isSome = !t.isNil) ∧
      ["A", "B", "C", "D", "E"].foldl tree_insert BTree.nil =
        BTree.node "A"
          (BTree.node "B" (BTree.node "D" BTree.nil BTree.nil)
            (BTree.node "E" BTree.nil BTree.nil))
          (BTree.node "C" BTree.nil BTree.nil) := by
  refine ⟨fun A t v => tree_insert_eq_spec t v, fun A t => specSlot_isSome t, ?_⟩
  have he : (tree_insert : BTree String → String → BTree String) = specTreeInsert :=
    funext fun t => funext fun v => tree_insert_eq_spec t v
  rw [he]
  decide
